import Mathlib

/-!
Shallow embedding of src/use-debounce.ts, a React hook providing debounced
state management.  The React runtime facilities the hook relies on are made
explicit:

* the two useState cells become the fields value and debouncedValue;
* timeoutRef becomes an index into an explicit list of every timer ever
  created by setTimeout, where clearTimeout marks a timer cancelled and a
  fired timer is marked fired (so at most one timer can be live, which is
  proved below rather than assumed);
* the useEffect with dependency array [value, delay] becomes effectBody,
  re-run only when one of those two dependencies actually changes (React
  compares dependencies with Object.is and skips the effect otherwise);
  the cleanup returned by the effect becomes effectCleanup, run before the
  next effect run and on unmount;
* the callbacks onChange and onFinish become the event logs changeLog and
  finishLog (an entry records the argument of one invocation, and for
  onFinish also the time at which the timer fired);
* the TypeScript type T of the debounced value becomes Option A, so that
  the undefined sentinel (none) is representable exactly where the source
  allows it: the value cell has type T | undefined and the effect guards
  on value !== undefined.

Time is an explicit natural-number parameter: every external event carries
the instant at which it happens, and before an event at time t is handled,
every timer whose expiry is at most t has already fired (fireDue).
-/

/-- One setTimeout registration in the host timer facility.  fireTime is the
absolute instant at which it is scheduled to expire, payload is the value
captured by the closure passed to setTimeout in the effect. -/
structure Timer (A : Type) where
  fireTime : Nat
  payload : A
  cancelled : Bool
  fired : Bool
  deriving DecidableEq, Repr

/-- A timer is live when it has neither been cancelled by clearTimeout nor
already fired. -/
def isLive {A : Type} (tm : Timer A) : Bool :=
  !tm.cancelled && !tm.fired

/-- The full state of one controller instance, together with the logs of the
callback invocations it has performed. -/
structure DState (A : Type) where
  value : Option A
  debouncedValue : Option A
  timers : List (Timer A)
  timeoutRef : Option Nat
  didMount : Bool
  mounted : Bool
  delay : Nat
  changeLog : List (Option A)
  finishLog : List (Nat × A)
  deriving DecidableEq, Repr

/-- Configuration of the hook (UseDebounceProps in the source).  The two
callbacks are modelled by the logs in DState, so only delay and
defaultValue remain as data. -/
structure UseDebounceProps (A : Type) where
  delay : Nat
  defaultValue : Option A
  deriving DecidableEq, Repr

/-- clearTimeout applied to the timer with index i: it is marked cancelled.
Clearing an index that never existed, or a timer that already fired, has no
observable effect on liveness, as in the host environment. -/
def clearTimeoutAt {A : Type} (i : Nat) (ts : List (Timer A)) : List (Timer A) :=
  match ts[i]? with
  | some tm => ts.set i { tm with cancelled := true }
  | none => ts

/-- The statement if (timeoutRef.current) clearTimeout(timeoutRef.current)
appearing both in the effect body and in its cleanup. -/
def clearRef {A : Type} (s : DState A) : DState A :=
  match s.timeoutRef with
  | some i => { s with timers := clearTimeoutAt i s.timers }
  | none => s

/-- timeoutRef.current = setTimeout(() => { onFinish?.(value);
setDebouncedValue(value) }, delay), run at instant now: a fresh live timer
scheduled for now + delay is registered and the ref points at it. -/
def setTimeoutArm {A : Type} (now : Nat) (v : A) (s : DState A) : DState A :=
  { s with
    timers := s.timers ++ [⟨now + s.delay, v, false, false⟩]
    timeoutRef := some s.timers.length }

/-- The body of the useEffect, run at instant now: on the very first run the
didMount flag is set and nothing else happens; afterwards the pending timer
is cleared and, when value is not the undefined sentinel, a new timer is
armed for the configured delay. -/
def effectBody {A : Type} (now : Nat) (s : DState A) : DState A :=
  if s.didMount then
    let s1 := clearRef s
    match s1.value with
    | some v => setTimeoutArm now v s1
    | none => s1
  else
    { s with didMount := true }

/-- The cleanup returned by the effect: clear the pending timer. -/
def effectCleanup {A : Type} (s : DState A) : DState A :=
  clearRef s

/-- A re-run of the effect after one of its dependencies changed: React
first runs the previous cleanup, then the effect body. -/
def effectRerun {A : Type} (now : Nat) (s : DState A) : DState A :=
  effectBody now (effectCleanup s)

/-- Expiry of the timer with index i at instant now, provided it is live and
due: the closure invokes onFinish with the captured value and then publishes
it via setDebouncedValue.  A timer that is not live or not yet due is left
alone. -/
def fireStep {A : Type} (now : Nat) (s : DState A) (i : Nat) : DState A :=
  match s.timers[i]? with
  | some tm =>
    if isLive tm = true ∧ tm.fireTime ≤ now then
      { s with
        timers := s.timers.set i { tm with fired := true }
        finishLog := s.finishLog ++ [(tm.fireTime, tm.payload)]
        debouncedValue := some tm.payload }
    else s
  | none => s

/-- Advance the clock to instant now: every live timer whose expiry is at
most now fires.  Timers are visited in order of registration; the invariant
proved below, that at most one timer is ever live, makes the visiting order
immaterial. -/
def fireDue {A : Type} (now : Nat) (s : DState A) : DState A :=
  (List.range s.timers.length).foldl (fireStep now) s

/-- handleChangeValue from the source, run at instant now: setValue(newValue)
followed by the synchronous onChange?.(newValue).  If newValue is identical
to the current value, React bails out of the state update and the effect
(whose dependency array is [value, delay]) does not re-run; otherwise the
value cell is updated and the effect re-runs after the render commits. -/
def handleChangeValue {A : Type} [DecidableEq A]
    (now : Nat) (newValue : Option A) (s : DState A) : DState A :=
  let s1 := { s with changeLog := s.changeLog ++ [newValue] }
  if s1.value = newValue then s1
  else effectRerun now { s1 with value := newValue }

/-- The target of an input change event; the field value stands for
e.target.value after the trusted coercion as T of the source. -/
structure EventTarget (A : Type) where
  value : Option A
  deriving DecidableEq, Repr

/-- A React.ChangeEvent as far as the hook inspects it. -/
structure ChangeEvent (A : Type) where
  target : EventTarget A
  deriving DecidableEq, Repr

/-- handleInputChange from the source, run at instant now: it extracts
newValue from the event and then repeats the body of handleChangeValue
verbatim (the source duplicates the two statements rather than calling
handleChangeValue). -/
def handleInputChange {A : Type} [DecidableEq A]
    (now : Nat) (e : ChangeEvent A) (s : DState A) : DState A :=
  let newValue := e.target.value
  let s1 := { s with changeLog := s.changeLog ++ [newValue] }
  if s1.value = newValue then s1
  else effectRerun now { s1 with value := newValue }

/-- External events driving one controller instance, each carrying the
instant at which it occurs: a setValue call, an input change event, a
change of the delay prop by the parent, and teardown of the component. -/
inductive Ev (A : Type) where
  | set : Nat → Option A → Ev A
  | input : Nat → ChangeEvent A → Ev A
  | setDelay : Nat → Nat → Ev A
  | unmount : Nat → Ev A
  deriving DecidableEq, Repr

/-- The instant at which an event occurs. -/
def Ev.time {A : Type} : Ev A → Nat
  | .set t _ => t
  | .input t _ => t
  | .setDelay t _ => t
  | .unmount t => t

/-- Handle one external event: first the clock advances to the instant of
the event (due timers fire), then the event itself is processed.  A torn
down component ignores every event.  A change of the delay prop re-runs the
effect (delay is in its dependency array); teardown runs the cleanup. -/
def step {A : Type} [DecidableEq A] (s : DState A) (e : Ev A) : DState A :=
  if s.mounted then
    match e with
    | .set t v => handleChangeValue t v (fireDue t s)
    | .input t ev => handleInputChange t ev (fireDue t s)
    | .setDelay t d =>
      let s0 := fireDue t s
      if s0.delay = d then s0 else effectRerun t { s0 with delay := d }
    | .unmount t => { effectCleanup (fireDue t s) with mounted := false }
  else s

/-- Mounting the hook at instant 0: both useState cells are initialised
(value unset, debouncedValue from defaultValue), the refs are initialised,
and the effect runs once, taking the didMount branch. -/
def useDebounce {A : Type} (props : UseDebounceProps A) : DState A :=
  effectBody 0
    { value := none
      debouncedValue := props.defaultValue
      timers := []
      timeoutRef := none
      didMount := false
      mounted := true
      delay := props.delay
      changeLog := []
      finishLog := [] }

/-- Run a controller from mount through a list of timed events. -/
def run {A : Type} [DecidableEq A]
    (props : UseDebounceProps A) (events : List (Ev A)) : DState A :=
  events.foldl step (useDebounce props)

/-- Run a controller through a list of timed events and then let the clock
advance to tEnd, firing whatever is due by then. -/
def runTo {A : Type} [DecidableEq A]
    (props : UseDebounceProps A) (events : List (Ev A)) (tEnd : Nat) : DState A :=
  fireDue tEnd (run props events)

/-! Generic helpers about folds and list indexing. -/

theorem foldl_fix {B C : Type} (f : C → B → C) (s : C) (h : ∀ b, f s b = s) :
    ∀ L : List B, L.foldl f s = s
  | [] => rfl
  | b :: L => by rw [List.foldl_cons, h, foldl_fix f s h L]

theorem foldl_pres {B C D : Type} (f : C → B → C) (g : C → D)
    (hf : ∀ s b, g (f s b) = g s) : ∀ (L : List B) (s : C), g (L.foldl f s) = g s
  | [], _ => rfl
  | b :: L, s => by rw [List.foldl_cons, foldl_pres f g hf L, hf]

theorem foldl_reach {C : Type} (f : C → Nat → C) (s : C) (r : Nat)
    (h1 : ∀ j, j ≠ r → f s j = s) (h2 : ∀ j, f (f s r) j = f s r) :
    ∀ L : List Nat, L.foldl f s = if r ∈ L then f s r else s
  | [] => by simp
  | a :: L => by
    by_cases ha : a = r
    · subst ha
      rw [List.foldl_cons, foldl_fix f (f s a) h2 L]
      simp
    · rw [List.foldl_cons, h1 a ha, foldl_reach f s r h1 h2 L]
      simp [List.mem_cons, Ne.symm ha]

theorem lt_of_getElem?_eq_some {A : Type} {l : List A} {i : Nat} {a : A}
    (h : l[i]? = some a) : i < l.length :=
  (List.getElem?_eq_some_iff.1 h).1

theorem mem_of_getElem?_eq_some {A : Type} {l : List A} {i : Nat} {a : A}
    (h : l[i]? = some a) : a ∈ l := by
  obtain ⟨hl, he⟩ := List.getElem?_eq_some_iff.1 h
  exact he ▸ List.getElem_mem hl

/-! Frame lemmas: which fields each primitive operation leaves unchanged. -/

theorem clearRef_eq_of_none {A : Type} {s : DState A} (h : s.timeoutRef = none) :
    clearRef s = s := by
  unfold clearRef; rw [h]

theorem clearRef_eq_of_some {A : Type} {s : DState A} {i : Nat}
    (h : s.timeoutRef = some i) :
    clearRef s = { s with timers := clearTimeoutAt i s.timers } := by
  unfold clearRef; rw [h]

@[simp] theorem clearTimeoutAt_length {A : Type} (i : Nat) (ts : List (Timer A)) :
    (clearTimeoutAt i ts).length = ts.length := by
  unfold clearTimeoutAt; cases h : ts[i]? <;> simp

@[simp] theorem clearRef_value {A : Type} (s : DState A) :
    (clearRef s).value = s.value := by
  unfold clearRef; cases s.timeoutRef <;> rfl

@[simp] theorem clearRef_debouncedValue {A : Type} (s : DState A) :
    (clearRef s).debouncedValue = s.debouncedValue := by
  unfold clearRef; cases s.timeoutRef <;> rfl

@[simp] theorem clearRef_changeLog {A : Type} (s : DState A) :
    (clearRef s).changeLog = s.changeLog := by
  unfold clearRef; cases s.timeoutRef <;> rfl

@[simp] theorem clearRef_finishLog {A : Type} (s : DState A) :
    (clearRef s).finishLog = s.finishLog := by
  unfold clearRef; cases s.timeoutRef <;> rfl

@[simp] theorem clearRef_mounted {A : Type} (s : DState A) :
    (clearRef s).mounted = s.mounted := by
  unfold clearRef; cases s.timeoutRef <;> rfl

@[simp] theorem clearRef_didMount {A : Type} (s : DState A) :
    (clearRef s).didMount = s.didMount := by
  unfold clearRef; cases s.timeoutRef <;> rfl

@[simp] theorem clearRef_delay {A : Type} (s : DState A) :
    (clearRef s).delay = s.delay := by
  unfold clearRef; cases s.timeoutRef <;> rfl

@[simp] theorem clearRef_timeoutRef {A : Type} (s : DState A) :
    (clearRef s).timeoutRef = s.timeoutRef := by
  unfold clearRef; cases h : s.timeoutRef <;> simp [h]

@[simp] theorem clearRef_timers_length {A : Type} (s : DState A) :
    (clearRef s).timers.length = s.timers.length := by
  unfold clearRef; cases s.timeoutRef <;> simp

@[simp] theorem setTimeoutArm_value {A : Type} (now : Nat) (v : A) (s : DState A) :
    (setTimeoutArm now v s).value = s.value := rfl

@[simp] theorem setTimeoutArm_debouncedValue {A : Type} (now : Nat) (v : A) (s : DState A) :
    (setTimeoutArm now v s).debouncedValue = s.debouncedValue := rfl

@[simp] theorem setTimeoutArm_changeLog {A : Type} (now : Nat) (v : A) (s : DState A) :
    (setTimeoutArm now v s).changeLog = s.changeLog := rfl

@[simp] theorem setTimeoutArm_finishLog {A : Type} (now : Nat) (v : A) (s : DState A) :
    (setTimeoutArm now v s).finishLog = s.finishLog := rfl

@[simp] theorem setTimeoutArm_mounted {A : Type} (now : Nat) (v : A) (s : DState A) :
    (setTimeoutArm now v s).mounted = s.mounted := rfl

@[simp] theorem setTimeoutArm_didMount {A : Type} (now : Nat) (v : A) (s : DState A) :
    (setTimeoutArm now v s).didMount = s.didMount := rfl

@[simp] theorem setTimeoutArm_delay {A : Type} (now : Nat) (v : A) (s : DState A) :
    (setTimeoutArm now v s).delay = s.delay := rfl

theorem effectBody_of_didMount {A : Type} {s : DState A} (now : Nat)
    (h : s.didMount = true) :
    effectBody now s =
      match (clearRef s).value with
      | some v => setTimeoutArm now v (clearRef s)
      | none => clearRef s := by
  unfold effectBody; rw [if_pos h]

@[simp] theorem effectBody_value {A : Type} (now : Nat) (s : DState A) :
    (effectBody now s).value = s.value := by
  by_cases h : s.didMount = true
  · rw [effectBody_of_didMount now h]
    cases hv : (clearRef s).value <;> simp [hv]
  · unfold effectBody
    rw [if_neg h]

@[simp] theorem effectBody_debouncedValue {A : Type} (now : Nat) (s : DState A) :
    (effectBody now s).debouncedValue = s.debouncedValue := by
  by_cases h : s.didMount = true
  · rw [effectBody_of_didMount now h]
    cases hv : (clearRef s).value <;> simp
  · unfold effectBody
    rw [if_neg h]

@[simp] theorem effectBody_changeLog {A : Type} (now : Nat) (s : DState A) :
    (effectBody now s).changeLog = s.changeLog := by
  by_cases h : s.didMount = true
  · rw [effectBody_of_didMount now h]
    cases hv : (clearRef s).value <;> simp
  · unfold effectBody
    rw [if_neg h]

@[simp] theorem effectBody_finishLog {A : Type} (now : Nat) (s : DState A) :
    (effectBody now s).finishLog = s.finishLog := by
  by_cases h : s.didMount = true
  · rw [effectBody_of_didMount now h]
    cases hv : (clearRef s).value <;> simp
  · unfold effectBody
    rw [if_neg h]

@[simp] theorem effectBody_mounted {A : Type} (now : Nat) (s : DState A) :
    (effectBody now s).mounted = s.mounted := by
  by_cases h : s.didMount = true
  · rw [effectBody_of_didMount now h]
    cases hv : (clearRef s).value <;> simp
  · unfold effectBody
    rw [if_neg h]

@[simp] theorem effectBody_delay {A : Type} (now : Nat) (s : DState A) :
    (effectBody now s).delay = s.delay := by
  by_cases h : s.didMount = true
  · rw [effectBody_of_didMount now h]
    cases hv : (clearRef s).value <;> simp
  · unfold effectBody
    rw [if_neg h]

@[simp] theorem effectBody_didMount {A : Type} (now : Nat) (s : DState A) :
    (effectBody now s).didMount = true := by
  by_cases h : s.didMount = true
  · rw [effectBody_of_didMount now h]
    cases hv : (clearRef s).value <;> simp [h]
  · unfold effectBody
    rw [if_neg h]

@[simp] theorem fireStep_value {A : Type} (now : Nat) (s : DState A) (i : Nat) :
    (fireStep now s i).value = s.value := by
  unfold fireStep; cases h : s.timers[i]? with
  | none => rfl
  | some tm => dsimp only; split <;> rfl

@[simp] theorem fireStep_changeLog {A : Type} (now : Nat) (s : DState A) (i : Nat) :
    (fireStep now s i).changeLog = s.changeLog := by
  unfold fireStep; cases h : s.timers[i]? with
  | none => rfl
  | some tm => dsimp only; split <;> rfl

@[simp] theorem fireStep_mounted {A : Type} (now : Nat) (s : DState A) (i : Nat) :
    (fireStep now s i).mounted = s.mounted := by
  unfold fireStep; cases h : s.timers[i]? with
  | none => rfl
  | some tm => dsimp only; split <;> rfl

@[simp] theorem fireStep_didMount {A : Type} (now : Nat) (s : DState A) (i : Nat) :
    (fireStep now s i).didMount = s.didMount := by
  unfold fireStep; cases h : s.timers[i]? with
  | none => rfl
  | some tm => dsimp only; split <;> rfl

@[simp] theorem fireStep_delay {A : Type} (now : Nat) (s : DState A) (i : Nat) :
    (fireStep now s i).delay = s.delay := by
  unfold fireStep; cases h : s.timers[i]? with
  | none => rfl
  | some tm => dsimp only; split <;> rfl

@[simp] theorem fireStep_timeoutRef {A : Type} (now : Nat) (s : DState A) (i : Nat) :
    (fireStep now s i).timeoutRef = s.timeoutRef := by
  unfold fireStep; cases h : s.timers[i]? with
  | none => rfl
  | some tm => dsimp only; split <;> rfl

@[simp] theorem fireDue_value {A : Type} (now : Nat) (s : DState A) :
    (fireDue now s).value = s.value :=
  foldl_pres (fireStep now) DState.value (fun t i => fireStep_value now t i) _ s

@[simp] theorem fireDue_changeLog {A : Type} (now : Nat) (s : DState A) :
    (fireDue now s).changeLog = s.changeLog :=
  foldl_pres (fireStep now) DState.changeLog (fun t i => fireStep_changeLog now t i) _ s

@[simp] theorem fireDue_mounted {A : Type} (now : Nat) (s : DState A) :
    (fireDue now s).mounted = s.mounted :=
  foldl_pres (fireStep now) DState.mounted (fun t i => fireStep_mounted now t i) _ s

@[simp] theorem fireDue_didMount {A : Type} (now : Nat) (s : DState A) :
    (fireDue now s).didMount = s.didMount :=
  foldl_pres (fireStep now) DState.didMount (fun t i => fireStep_didMount now t i) _ s

@[simp] theorem fireDue_delay {A : Type} (now : Nat) (s : DState A) :
    (fireDue now s).delay = s.delay :=
  foldl_pres (fireStep now) DState.delay (fun t i => fireStep_delay now t i) _ s

@[simp] theorem fireDue_timeoutRef {A : Type} (now : Nat) (s : DState A) :
    (fireDue now s).timeoutRef = s.timeoutRef :=
  foldl_pres (fireStep now) DState.timeoutRef (fun t i => fireStep_timeoutRef now t i) _ s

/-! Liveness predicates and the single-live-timer machinery. -/

/-- No timer of the state is live. -/
def NoLive {A : Type} (s : DState A) : Prop :=
  ∀ tm ∈ s.timers, isLive tm = false

/-- Every live timer is the one the ref points at; hence at most one timer
is live. -/
def RefLive {A : Type} (s : DState A) : Prop :=
  ∀ i tm, s.timers[i]? = some tm → isLive tm = true → s.timeoutRef = some i

theorem noLive_refLive {A : Type} {s : DState A} (h : NoLive s) : RefLive s := by
  intro i tm hi hlive
  rw [h tm (mem_of_getElem?_eq_some hi)] at hlive
  exact absurd hlive (by simp)

theorem clearRef_noLive {A : Type} {s : DState A} (h : RefLive s) :
    NoLive (clearRef s) := by
  intro tm hmem
  cases href : s.timeoutRef with
  | none =>
    rw [clearRef_eq_of_none href] at hmem
    by_contra hliveF
    have hlive : isLive tm = true := by simpa using hliveF
    obtain ⟨i, hi⟩ := List.mem_iff_getElem?.1 hmem
    rw [h i tm hi hlive] at href
    exact Option.noConfusion href
  | some r =>
    rw [clearRef_eq_of_some href] at hmem
    by_contra hliveF
    have hlive : isLive tm = true := by simpa using hliveF
    unfold clearTimeoutAt at hmem
    cases hr : s.timers[r]? with
    | none =>
      rw [hr] at hmem
      obtain ⟨i, hi⟩ := List.mem_iff_getElem?.1 hmem
      have := h i tm hi hlive
      rw [href] at this
      have hri : r = i := by injection this
      rw [← hri] at hi
      rw [hi] at hr
      exact Option.noConfusion hr
    | some tmr =>
      rw [hr] at hmem
      obtain ⟨i, hi⟩ := List.mem_iff_getElem?.1 hmem
      by_cases hri : r = i
      · subst hri
        rw [List.getElem?_set_self (lt_of_getElem?_eq_some hr)] at hi
        have htm : tm = { tmr with cancelled := true } := by
          injection hi with h2; exact h2.symm
        rw [htm] at hlive
        simp [isLive] at hlive
      · rw [List.getElem?_set_ne hri] at hi
        have := h i tm hi hlive
        rw [href] at this
        have : r = i := by injection this
        exact hri this

theorem fireStep_of_noLive {A : Type} {s : DState A} (now i : Nat)
    (h : NoLive s) : fireStep now s i = s := by
  unfold fireStep
  cases hi : s.timers[i]? with
  | none => rfl
  | some tm =>
    dsimp only
    rw [if_neg]
    intro hc
    rw [h tm (mem_of_getElem?_eq_some hi)] at hc
    exact absurd hc.1 (by simp)

theorem fireDue_of_noLive {A : Type} {s : DState A} (now : Nat)
    (h : NoLive s) : fireDue now s = s :=
  foldl_fix (fireStep now) s (fun i => fireStep_of_noLive now i h) _

theorem fireStep_of_notDue {A : Type} {s : DState A} (now i : Nat)
    (h : ∀ tm ∈ s.timers, isLive tm = true → now < tm.fireTime) :
    fireStep now s i = s := by
  unfold fireStep
  cases hi : s.timers[i]? with
  | none => rfl
  | some tm =>
    dsimp only
    rw [if_neg]
    intro hc
    exact absurd hc.2 (Nat.not_le.2 (h tm (mem_of_getElem?_eq_some hi) hc.1))

theorem fireDue_of_notDue {A : Type} {s : DState A} (now : Nat)
    (h : ∀ tm ∈ s.timers, isLive tm = true → now < tm.fireTime) :
    fireDue now s = s :=
  foldl_fix (fireStep now) s (fun i => fireStep_of_notDue now i h) _

theorem noLive_set_fired {A : Type} {s : DState A} {r : Nat} {tm : Timer A}
    (href : RefLive s) (hr : s.timers[r]? = some tm) (hlr : isLive tm = true) :
    ∀ tm2 ∈ s.timers.set r { tm with fired := true }, isLive tm2 = false := by
  intro tm2 hmem
  by_contra hliveF
  have hlive : isLive tm2 = true := by simpa using hliveF
  obtain ⟨i, hi⟩ := List.mem_iff_getElem?.1 hmem
  by_cases hri : r = i
  · subst hri
    rw [List.getElem?_set_self (lt_of_getElem?_eq_some hr)] at hi
    have htm : tm2 = { tm with fired := true } := by
      injection hi with h2; exact h2.symm
    rw [htm] at hlive
    simp [isLive] at hlive
  · rw [List.getElem?_set_ne hri] at hi
    have h1 := href i tm2 hi hlive
    have h2 := href r tm hr hlr
    rw [h1] at h2
    exact hri (by injection h2 with h3; exact h3.symm)

theorem fireStep_fire {A : Type} {s : DState A} {r : Nat} {tm : Timer A} {now : Nat}
    (hr : s.timers[r]? = some tm) (hlive : isLive tm = true)
    (hdue : tm.fireTime ≤ now) :
    fireStep now s r =
      { s with
        timers := s.timers.set r { tm with fired := true }
        finishLog := s.finishLog ++ [(tm.fireTime, tm.payload)]
        debouncedValue := some tm.payload } := by
  unfold fireStep
  rw [hr]
  dsimp only
  rw [if_pos ⟨hlive, hdue⟩]

theorem fireStep_of_ne {A : Type} {s : DState A} {r : Nat} (now : Nat)
    (href : RefLive s) (htr : s.timeoutRef = some r) :
    ∀ j, j ≠ r → fireStep now s j = s := by
  intro j hj
  unfold fireStep
  cases hjt : s.timers[j]? with
  | none => rfl
  | some tmj =>
    dsimp only
    rw [if_neg]
    intro hc
    have h1 := href j tmj hjt hc.1
    rw [htr] at h1
    exact hj (by injection h1 with h2; exact h2.symm)

theorem fireDue_single {A : Type} {s : DState A} {r : Nat} {tm : Timer A} (now : Nat)
    (href : RefLive s) (hr : s.timers[r]? = some tm) (hlive : isLive tm = true)
    (hdue : tm.fireTime ≤ now) :
    fireDue now s =
      { s with
        timers := s.timers.set r { tm with fired := true }
        finishLog := s.finishLog ++ [(tm.fireTime, tm.payload)]
        debouncedValue := some tm.payload } := by
  have htr : s.timeoutRef = some r := href r tm hr hlive
  have h1 : ∀ j, j ≠ r → fireStep now s j = s := fireStep_of_ne now href htr
  have hfr : fireStep now s r = _ := fireStep_fire hr hlive hdue
  have hnl : NoLive (fireStep now s r) := by
    rw [hfr]
    intro tm2 hmem
    exact noLive_set_fired href hr hlive tm2 hmem
  have h2 : ∀ j, fireStep now (fireStep now s r) j = fireStep now s r :=
    fun j => fireStep_of_noLive now j hnl
  unfold fireDue
  rw [foldl_reach (fireStep now) s r h1 h2,
    if_pos (List.mem_range.2 (lt_of_getElem?_eq_some hr)), hfr]

/-! Preservation of RefLive by each operation. -/

theorem refLive_clearRef {A : Type} {s : DState A} (h : RefLive s) :
    RefLive (clearRef s) :=
  noLive_refLive (clearRef_noLive h)

theorem refLive_setTimeoutArm {A : Type} {s : DState A} (now : Nat) (v : A)
    (h : NoLive s) : RefLive (setTimeoutArm now v s) := by
  intro i tm hi hlive
  have hts : (setTimeoutArm now v s).timers
      = s.timers ++ [⟨now + s.delay, v, false, false⟩] := rfl
  rw [hts] at hi
  by_cases hil : i < s.timers.length
  · rw [List.getElem?_append, if_pos hil] at hi
    rw [h tm (mem_of_getElem?_eq_some hi)] at hlive
    exact absurd hlive (by simp)
  · have hge : s.timers.length ≤ i := Nat.le_of_not_lt hil
    rw [List.getElem?_append_right hge] at hi
    have hlen : i - s.timers.length < 1 := by
      have := lt_of_getElem?_eq_some hi
      simpa using this
    have hieq : i = s.timers.length :=
      Nat.le_antisymm (Nat.sub_eq_zero_iff_le.1 (Nat.lt_one_iff.1 hlen)) hge
    show (setTimeoutArm now v s).timeoutRef = some i
    rw [hieq]
    rfl

theorem refLive_effectBody {A : Type} {s : DState A} (now : Nat) (h : RefLive s) :
    RefLive (effectBody now s) := by
  by_cases hd : s.didMount = true
  · rw [effectBody_of_didMount now hd]
    cases hv : (clearRef s).value with
    | some v => exact refLive_setTimeoutArm now v (clearRef_noLive h)
    | none => exact noLive_refLive (clearRef_noLive h)
  · unfold effectBody
    rw [if_neg hd]
    intro i tm hi hlive
    exact h i tm hi hlive

theorem refLive_effectRerun {A : Type} {s : DState A} (now : Nat) (h : RefLive s) :
    RefLive (effectRerun now s) :=
  refLive_effectBody now (noLive_refLive (clearRef_noLive h))

theorem refLive_fireStep {A : Type} {s : DState A} (now i : Nat) (h : RefLive s) :
    RefLive (fireStep now s i) := by
  unfold fireStep
  cases hi : s.timers[i]? with
  | none => exact h
  | some tm =>
    dsimp only
    split
    · rename_i hc
      intro j tmj hj hlive
      have := noLive_set_fired h hi hc.1 tmj (mem_of_getElem?_eq_some hj)
      rw [this] at hlive
      exact absurd hlive (by simp)
    · exact h

theorem foldl_pred {B C : Type} (f : C → B → C) (P : C → Prop)
    (hf : ∀ s b, P s → P (f s b)) : ∀ (L : List B) (s : C), P s → P (L.foldl f s)
  | [], _, h => h
  | b :: L, s, h => by
    rw [List.foldl_cons]
    exact foldl_pred f P hf L (f s b) (hf s b h)

theorem refLive_fireDue {A : Type} {s : DState A} (now : Nat) (h : RefLive s) :
    RefLive (fireDue now s) :=
  foldl_pred (fireStep now) RefLive (fun _ i => refLive_fireStep now i) _ s h

/-! Frame lemmas for effectRerun and the reachability invariant CoreInv. -/

@[simp] theorem effectRerun_value {A : Type} (now : Nat) (s : DState A) :
    (effectRerun now s).value = s.value := by
  unfold effectRerun effectCleanup; simp

@[simp] theorem effectRerun_debouncedValue {A : Type} (now : Nat) (s : DState A) :
    (effectRerun now s).debouncedValue = s.debouncedValue := by
  unfold effectRerun effectCleanup; simp

@[simp] theorem effectRerun_changeLog {A : Type} (now : Nat) (s : DState A) :
    (effectRerun now s).changeLog = s.changeLog := by
  unfold effectRerun effectCleanup; simp

@[simp] theorem effectRerun_finishLog {A : Type} (now : Nat) (s : DState A) :
    (effectRerun now s).finishLog = s.finishLog := by
  unfold effectRerun effectCleanup; simp

@[simp] theorem effectRerun_mounted {A : Type} (now : Nat) (s : DState A) :
    (effectRerun now s).mounted = s.mounted := by
  unfold effectRerun effectCleanup; simp

@[simp] theorem effectRerun_delay {A : Type} (now : Nat) (s : DState A) :
    (effectRerun now s).delay = s.delay := by
  unfold effectRerun effectCleanup; simp

@[simp] theorem effectRerun_didMount {A : Type} (now : Nat) (s : DState A) :
    (effectRerun now s).didMount = true := by
  unfold effectRerun effectCleanup; simp

theorem noLive_effectRerun_none {A : Type} {s : DState A} (now : Nat)
    (h : RefLive s) (hv : s.value = none) : NoLive (effectRerun now s) := by
  unfold effectRerun effectCleanup
  by_cases hd : (clearRef s).didMount = true
  · rw [effectBody_of_didMount now hd]
    cases hv2 : (clearRef (clearRef s)).value with
    | some v =>
      rw [clearRef_value, clearRef_value] at hv2
      rw [hv] at hv2
      exact Option.noConfusion hv2
    | none =>
      show NoLive (clearRef (clearRef s))
      exact clearRef_noLive (refLive_clearRef h)
  · unfold effectBody
    rw [if_neg hd]
    intro tm hmem
    exact clearRef_noLive h tm hmem

/-- The reachability invariant used for the structural claims: every live
timer is the referenced one, a state with the sentinel value has no live
timer, a torn down state has no live timer, and the mount flag is set. -/
def CoreInv {A : Type} (s : DState A) : Prop :=
  RefLive s ∧ (s.value = none → NoLive s) ∧ (s.mounted = false → NoLive s) ∧
    s.didMount = true

theorem coreInv_of_noLive {A : Type} {s : DState A} (h : NoLive s)
    (hd : s.didMount = true) : CoreInv s :=
  ⟨noLive_refLive h, fun _ => h, fun _ => h, hd⟩

theorem coreInv_fireStep {A : Type} {s : DState A} (now i : Nat)
    (h : CoreInv s) : CoreInv (fireStep now s i) := by
  obtain ⟨h1, h2, h3, h4⟩ := h
  by_cases hv : s.value = none
  · rw [fireStep_of_noLive now i (h2 hv)]
    exact ⟨h1, h2, h3, h4⟩
  · by_cases hm : s.mounted = false
    · rw [fireStep_of_noLive now i (h3 hm)]
      exact ⟨h1, h2, h3, h4⟩
    · refine ⟨refLive_fireStep now i h1, ?_, ?_, ?_⟩
      · intro hv2
        rw [fireStep_value] at hv2
        exact absurd hv2 hv
      · intro hm2
        rw [fireStep_mounted] at hm2
        exact absurd hm2 hm
      · rw [fireStep_didMount]
        exact h4

theorem coreInv_fireDue {A : Type} {s : DState A} (now : Nat)
    (h : CoreInv s) : CoreInv (fireDue now s) :=
  foldl_pred (fireStep now) CoreInv (fun _ i => coreInv_fireStep now i) _ s h

theorem coreInv_effectRerun {A : Type} {s : DState A} (now : Nat)
    (h1 : RefLive s) (hm : s.mounted = true) : CoreInv (effectRerun now s) := by
  refine ⟨refLive_effectRerun now h1, ?_, ?_, effectRerun_didMount now s⟩
  · intro hv
    rw [effectRerun_value] at hv
    exact noLive_effectRerun_none now h1 hv
  · intro hm2
    rw [effectRerun_mounted, hm] at hm2
    exact absurd hm2 (by simp)

/-! Unfolding lemmas for handleChangeValue and step. -/

theorem handleChangeValue_eq_bail {A : Type} [DecidableEq A] {s : DState A}
    {now : Nat} {v : Option A} (h : s.value = v) :
    handleChangeValue now v s = { s with changeLog := s.changeLog ++ [v] } := by
  simp only [handleChangeValue]
  rw [if_pos h]

theorem handleChangeValue_eq_rerun {A : Type} [DecidableEq A] {s : DState A}
    {now : Nat} {v : Option A} (h : ¬s.value = v) :
    handleChangeValue now v s =
      effectRerun now { s with value := v, changeLog := s.changeLog ++ [v] } := by
  simp only [handleChangeValue]
  rw [if_neg h]

theorem handleInputChange_eq_handleChangeValue {A : Type} [DecidableEq A]
    (now : Nat) (e : ChangeEvent A) (s : DState A) :
    handleInputChange now e s = handleChangeValue now e.target.value s := rfl

theorem step_set {A : Type} [DecidableEq A] {s : DState A} (t : Nat)
    (v : Option A) (hm : s.mounted = true) :
    step s (Ev.set t v) = handleChangeValue t v (fireDue t s) := by
  unfold step
  rw [if_pos hm]

theorem step_input {A : Type} [DecidableEq A] {s : DState A} (t : Nat)
    (e : ChangeEvent A) (hm : s.mounted = true) :
    step s (Ev.input t e) = handleInputChange t e (fireDue t s) := by
  unfold step
  rw [if_pos hm]

theorem step_setDelay_eq {A : Type} [DecidableEq A] {s : DState A} (t d : Nat)
    (hm : s.mounted = true) (hd : (fireDue t s).delay = d) :
    step s (Ev.setDelay t d) = fireDue t s := by
  unfold step
  rw [if_pos hm]
  dsimp only
  rw [if_pos hd]

theorem step_setDelay_ne {A : Type} [DecidableEq A] {s : DState A} (t d : Nat)
    (hm : s.mounted = true) (hd : ¬(fireDue t s).delay = d) :
    step s (Ev.setDelay t d) = effectRerun t { fireDue t s with delay := d } := by
  unfold step
  rw [if_pos hm]
  dsimp only
  rw [if_neg hd]

theorem step_unmount {A : Type} [DecidableEq A] {s : DState A} (t : Nat)
    (hm : s.mounted = true) :
    step s (Ev.unmount t) = { effectCleanup (fireDue t s) with mounted := false } := by
  unfold step
  rw [if_pos hm]

theorem step_unmounted {A : Type} [DecidableEq A] {s : DState A} (e : Ev A)
    (hm : s.mounted = false) : step s e = s := by
  unfold step
  rw [if_neg]
  rw [hm]
  simp

theorem coreInv_handleChangeValue {A : Type} [DecidableEq A] {s : DState A}
    (now : Nat) (v : Option A) (h : CoreInv s) (hm : s.mounted = true) :
    CoreInv (handleChangeValue now v s) := by
  obtain ⟨h1, h2, h3, h4⟩ := h
  by_cases he : s.value = v
  · rw [handleChangeValue_eq_bail he]
    exact ⟨fun i tm hi hl => h1 i tm hi hl, fun hv tm hmem => h2 hv tm hmem,
      fun hmf tm hmem => h3 hmf tm hmem, h4⟩
  · rw [handleChangeValue_eq_rerun he]
    exact coreInv_effectRerun now (fun i tm hi hl => h1 i tm hi hl) hm

theorem coreInv_step {A : Type} [DecidableEq A] {s : DState A} (e : Ev A)
    (h : CoreInv s) : CoreInv (step s e) := by
  by_cases hm : s.mounted = true
  · cases e with
    | set t v =>
      rw [step_set t v hm]
      exact coreInv_handleChangeValue t v (coreInv_fireDue t h)
        (by rw [fireDue_mounted]; exact hm)
    | input t ev =>
      rw [step_input t ev hm, handleInputChange_eq_handleChangeValue]
      exact coreInv_handleChangeValue t ev.target.value (coreInv_fireDue t h)
        (by rw [fireDue_mounted]; exact hm)
    | setDelay t d =>
      by_cases hd : (fireDue t s).delay = d
      · rw [step_setDelay_eq t d hm hd]
        exact coreInv_fireDue t h
      · rw [step_setDelay_ne t d hm hd]
        have hc := coreInv_fireDue t h
        exact coreInv_effectRerun t (fun i tm hi hl => hc.1 i tm hi hl)
          (by rw [fireDue_mounted]; exact hm)
    | unmount t =>
      rw [step_unmount t hm]
      apply coreInv_of_noLive
      · intro tm hmem
        exact clearRef_noLive (refLive_fireDue t h.1) tm hmem
      · show (clearRef (fireDue t s)).didMount = true
        rw [clearRef_didMount, fireDue_didMount]
        exact h.2.2.2
  · rw [step_unmounted e (by simpa using hm)]
    exact h

theorem useDebounce_eq {A : Type} (props : UseDebounceProps A) :
    useDebounce props =
      { value := none
        debouncedValue := props.defaultValue
        timers := []
        timeoutRef := none
        didMount := true
        mounted := true
        delay := props.delay
        changeLog := []
        finishLog := [] } := rfl

theorem coreInv_useDebounce {A : Type} (props : UseDebounceProps A) :
    CoreInv (useDebounce props) := by
  rw [useDebounce_eq]
  apply coreInv_of_noLive
  · intro tm hmem
    simp at hmem
  · rfl

theorem coreInv_run {A : Type} [DecidableEq A] (props : UseDebounceProps A)
    (events : List (Ev A)) : CoreInv (run props events) :=
  foldl_pred step CoreInv (fun _ e hc => coreInv_step e hc) events
    (useDebounce props) (coreInv_useDebounce props)

/-! Helper lemmas about handleChangeValue and step fields. -/

theorem handleChangeValue_debouncedValue {A : Type} [DecidableEq A]
    (now : Nat) (v : Option A) (s : DState A) :
    (handleChangeValue now v s).debouncedValue = s.debouncedValue := by
  by_cases he : s.value = v
  · rw [handleChangeValue_eq_bail he]
  · rw [handleChangeValue_eq_rerun he, effectRerun_debouncedValue]

theorem handleChangeValue_value {A : Type} [DecidableEq A]
    (now : Nat) (v : Option A) (s : DState A) :
    (handleChangeValue now v s).value = v := by
  by_cases he : s.value = v
  · rw [handleChangeValue_eq_bail he]
    exact he
  · rw [handleChangeValue_eq_rerun he, effectRerun_value]

theorem handleChangeValue_mounted {A : Type} [DecidableEq A]
    (now : Nat) (v : Option A) (s : DState A) :
    (handleChangeValue now v s).mounted = s.mounted := by
  by_cases he : s.value = v
  · rw [handleChangeValue_eq_bail he]
  · rw [handleChangeValue_eq_rerun he, effectRerun_mounted]

theorem handleChangeValue_changeLog {A : Type} [DecidableEq A]
    (now : Nat) (v : Option A) (s : DState A) :
    (handleChangeValue now v s).changeLog = s.changeLog ++ [v] := by
  by_cases he : s.value = v
  · rw [handleChangeValue_eq_bail he]
  · rw [handleChangeValue_eq_rerun he, effectRerun_changeLog]

theorem handleChangeValue_finishLog {A : Type} [DecidableEq A]
    (now : Nat) (v : Option A) (s : DState A) :
    (handleChangeValue now v s).finishLog = s.finishLog := by
  by_cases he : s.value = v
  · rw [handleChangeValue_eq_bail he]
  · rw [handleChangeValue_eq_rerun he, effectRerun_finishLog]

theorem handleChangeValue_delay {A : Type} [DecidableEq A]
    (now : Nat) (v : Option A) (s : DState A) :
    (handleChangeValue now v s).delay = s.delay := by
  by_cases he : s.value = v
  · rw [handleChangeValue_eq_bail he]
  · rw [handleChangeValue_eq_rerun he, effectRerun_delay]

theorem handleChangeValue_didMount {A : Type} [DecidableEq A]
    (now : Nat) (v : Option A) (s : DState A) (h : s.didMount = true) :
    (handleChangeValue now v s).didMount = true := by
  by_cases he : s.value = v
  · rw [handleChangeValue_eq_bail he]
    exact h
  · rw [handleChangeValue_eq_rerun he, effectRerun_didMount]

theorem step_set_mounted {A : Type} [DecidableEq A] (s : DState A) (t : Nat)
    (v : Option A) : (step s (Ev.set t v)).mounted = s.mounted := by
  by_cases hm : s.mounted = true
  · rw [step_set t v hm, handleChangeValue_mounted, fireDue_mounted]
  · rw [step_unmounted _ (by simpa using hm)]

theorem effectBody_none_timers_length {A : Type} {s : DState A} (now : Nat)
    (hv : s.value = none) (hd : s.didMount = true) :
    (effectBody now s).timers.length = s.timers.length := by
  rw [effectBody_of_didMount now hd]
  cases hv2 : (clearRef s).value with
  | some v =>
    rw [clearRef_value, hv] at hv2
    exact Option.noConfusion hv2
  | none =>
    show (clearRef s).timers.length = s.timers.length
    exact clearRef_timers_length s

theorem filter_length_le_one {B : Type} (l : List B) (p : B → Bool)
    (h : ∀ (i j : Nat) (bi bj : B), l[i]? = some bi → l[j]? = some bj →
      p bi = true → p bj = true → i = j) :
    (l.filter p).length ≤ 1 := by
  induction l with
  | nil => simp
  | cons a t ih =>
    by_cases hpa : p a = true
    · have hnil : t.filter p = [] := by
        rw [List.filter_eq_nil_iff]
        intro b hb hpb
        obtain ⟨j, hj⟩ := List.mem_iff_getElem?.1 hb
        have h0 : (a :: t)[0]? = some a := by simp
        have hj1 : (a :: t)[j + 1]? = some b := by simpa using hj
        exact Nat.noConfusion (h 0 (j + 1) a b h0 hj1 hpa hpb)
      rw [List.filter_cons, if_pos hpa, hnil]
      simp
    · rw [List.filter_cons, if_neg hpa]
      apply ih
      intro i j bi bj hi hj hpi hpj
      have hi1 : (a :: t)[i + 1]? = some bi := by simpa using hi
      have hj1 : (a :: t)[j + 1]? = some bj := by simpa using hj
      have h2 := h (i + 1) (j + 1) bi bj hi1 hj1 hpi hpj
      omega

theorem run_sets_mounted {A : Type} [DecidableEq A] (props : UseDebounceProps A)
    (calls : List (Nat × Option A)) :
    (run props (calls.map fun p => Ev.set p.1 p.2)).mounted = true := by
  unfold run
  rw [List.foldl_map]
  exact foldl_pred (fun st p => step st (Ev.set p.1 p.2))
    (fun st => st.mounted = true)
    (fun st p hst => by
      show (step st (Ev.set p.1 p.2)).mounted = true
      rw [step_set_mounted]
      exact hst)
    calls (useDebounce props) rfl

theorem foldl_set_changeLog {A : Type} [DecidableEq A] :
    ∀ (calls : List (Nat × Option A)) (s : DState A), s.mounted = true →
      (calls.foldl (fun st p => step st (Ev.set p.1 p.2)) s).changeLog
        = s.changeLog ++ calls.map (fun p => p.2)
  | [], s, _ => by simp
  | c :: cs, s, h => by
    rw [List.foldl_cons,
      foldl_set_changeLog cs (step s (Ev.set c.1 c.2)) (by rw [step_set_mounted]; exact h),
      step_set c.1 c.2 h, handleChangeValue_changeLog, fireDue_changeLog]
    simp

/-- C4: in the initial state, before any setValue call, value is unset,
debouncedValue equals the configured defaultValue, no onFinish or onChange
invocation has occurred, and no timer has been armed on the first
activation, whose effect run only sets the mount flag. -/
theorem useDebounce_initial_state (props : UseDebounceProps ℕ) :
    (useDebounce props).value = none ∧
    (useDebounce props).debouncedValue = props.defaultValue ∧
    (useDebounce props).changeLog = [] ∧
    (useDebounce props).finishLog = [] ∧
    (useDebounce props).timers = [] ∧
    (useDebounce props).didMount = true :=
  ⟨rfl, rfl, rfl, rfl, rfl, rfl⟩

/-- C5: in every state reachable by any sequence of events (setValue calls,
input events, delay changes, teardown) and any clock advance, at most one
timer is live: no reachable state has two outstanding scheduled commits. -/
theorem useDebounce_at_most_one_live_timer (props : UseDebounceProps ℕ)
    (events : List (Ev ℕ)) (tEnd : Nat) :
    ((runTo props events tEnd).timers.filter (fun tm => isLive tm)).length ≤ 1 := by
  have hc : CoreInv (runTo props events tEnd) := by
    unfold runTo
    exact coreInv_fireDue tEnd (coreInv_run props events)
  apply filter_length_le_one
  intro i j bi bj hi hj hpi hpj
  have h1 := hc.1 i bi hi hpi
  have h2 := hc.1 j bj hj hpj
  rw [h1] at h2
  injection h2

/-- C9: the input-event adapter behaves identically to setValue applied to
the value extracted from the event payload, both as the bare synchronous
operation and as a full event step (same LiveValue update, same onChange
notification, same rearming). -/
theorem useDebounce_input_adapter_refines (s : DState ℕ) (now : Nat)
    (e : ChangeEvent ℕ) :
    handleInputChange now e s = handleChangeValue now e.target.value s ∧
    step s (Ev.input now e) = step s (Ev.set now e.target.value) := by
  constructor
  · rfl
  · by_cases hm : s.mounted = true
    · rw [step_set now e.target.value hm, step_input now e hm]
      rfl
    · have hmf : s.mounted = false := by simpa using hm
      rw [step_unmounted _ hmf, step_unmounted _ hmf]

/-- C6: debouncedValue changes only as a direct result of a pending timer
firing: the synchronous operations (setValue, the input adapter, an effect
re-run, the cleanup) all leave debouncedValue unchanged, and a full event
step either leaves the state untouched or changes debouncedValue exactly as
the clock advance to the event instant does. -/
theorem useDebounce_settled_only_by_timer (s : DState ℕ) (now : Nat)
    (v : Option ℕ) (e : ChangeEvent ℕ) :
    (handleChangeValue now v s).debouncedValue = s.debouncedValue ∧
    (handleInputChange now e s).debouncedValue = s.debouncedValue ∧
    (effectRerun now s).debouncedValue = s.debouncedValue ∧
    (effectCleanup s).debouncedValue = s.debouncedValue ∧
    ∀ ev : Ev ℕ, (step s ev).debouncedValue = (fireDue (Ev.time ev) s).debouncedValue
      ∨ step s ev = s := by
  refine ⟨handleChangeValue_debouncedValue now v s, ?_, effectRerun_debouncedValue now s,
    clearRef_debouncedValue s, ?_⟩
  · rw [handleInputChange_eq_handleChangeValue]
    exact handleChangeValue_debouncedValue now e.target.value s
  · intro ev
    by_cases hm : s.mounted = true
    · left
      cases ev with
      | set t v2 =>
        rw [step_set t v2 hm, handleChangeValue_debouncedValue]
        rfl
      | input t e2 =>
        rw [step_input t e2 hm, handleInputChange_eq_handleChangeValue,
          handleChangeValue_debouncedValue]
        rfl
      | setDelay t d =>
        by_cases hd : (fireDue t s).delay = d
        · rw [step_setDelay_eq t d hm hd]
          rfl
        · rw [step_setDelay_ne t d hm hd, effectRerun_debouncedValue]
          rfl
      | unmount t =>
        rw [step_unmount t hm]
        show (clearRef (fireDue t s)).debouncedValue = (fireDue t s).debouncedValue
        exact clearRef_debouncedValue (fireDue t s)
    · right
      exact step_unmounted ev (by simpa using hm)

/-- C7: after every setValue call the value field reflects the argument
synchronously: over any sequence of setValue calls the handle ends with the
last call's argument as its value, and the bare operation always returns a
state whose value is its argument. -/
theorem useDebounce_value_synchronous (props : UseDebounceProps ℕ)
    (calls : List (Nat × Option ℕ)) (t : Nat) (v : Option ℕ) :
    (run props ((calls.map fun p => Ev.set p.1 p.2) ++ [Ev.set t v])).value = v ∧
    ∀ (s : DState ℕ) (now : Nat) (w : Option ℕ),
      (handleChangeValue now w s).value = w := by
  constructor
  · unfold run
    rw [List.foldl_append]
    simp only [List.foldl_cons, List.foldl_nil]
    show (step (run props (calls.map fun p => Ev.set p.1 p.2)) (Ev.set t v)).value = v
    rw [step_set t v (run_sets_mounted props calls), handleChangeValue_value]
  · intro s now w
    exact handleChangeValue_value now w s

/-- C3: over any sequence of setValue calls the onChange log is exactly the
list of the calls' arguments, in order, one entry per call; in particular
initialization contributes no entry and timer firings (the clock advance to
any tEnd) contribute no entry. -/
theorem useDebounce_onChange_per_call (props : UseDebounceProps ℕ)
    (calls : List (Nat × Option ℕ)) (tEnd : Nat) :
    (runTo props (calls.map fun p => Ev.set p.1 p.2) tEnd).changeLog
      = calls.map fun p => p.2 := by
  unfold runTo
  rw [fireDue_changeLog]
  unfold run
  rw [List.foldl_map, foldl_set_changeLog calls (useDebounce props) rfl,
    useDebounce_eq]
  simp

/-- C8: once the controller is torn down, nothing happens any more: after an
unmount event, advancing the clock arbitrarily far changes nothing (so no
onFinish fires and debouncedValue stays unchanged), and any further events
are ignored. -/
theorem useDebounce_teardown_no_fire (props : UseDebounceProps ℕ)
    (events : List (Ev ℕ)) (t tEnd : Nat) (more : List (Ev ℕ)) :
    fireDue tEnd (step (run props events) (Ev.unmount t))
      = step (run props events) (Ev.unmount t) ∧
    more.foldl step (step (run props events) (Ev.unmount t))
      = step (run props events) (Ev.unmount t) := by
  have hc := coreInv_run props events
  have hnl : NoLive (step (run props events) (Ev.unmount t)) := by
    by_cases hm : (run props events).mounted = true
    · rw [step_unmount t hm]
      intro tm hmem
      exact clearRef_noLive (refLive_fireDue t hc.1) tm hmem
    · rw [step_unmounted _ (by simpa using hm)]
      exact hc.2.2.1 (by simpa using hm)
  have hmf2 : (step (run props events) (Ev.unmount t)).mounted = false := by
    by_cases hm : (run props events).mounted = true
    · rw [step_unmount t hm]
    · rw [step_unmounted _ (by simpa using hm)]
      simpa using hm
  exact ⟨fireDue_of_noLive tEnd hnl,
    foldl_fix step _ (fun e => step_unmounted e hmf2) more⟩

/-- C10: with the sentinel as live value the effect arms no timer, so a
setValue call carrying the sentinel, in any reachable state, cancels the
pending commit without arming a replacement: afterwards no timer is live
and advancing the clock arbitrarily far changes nothing (the pending
onFinish never fires, debouncedValue stays unchanged). -/
theorem useDebounce_sentinel_no_arm (s : DState ℕ) (now : Nat)
    (props : UseDebounceProps ℕ) (events : List (Ev ℕ)) (t tEnd : Nat) :
    (effectBody now { s with value := none, didMount := true }).timers.length
      = s.timers.length ∧
    (step (run props events) (Ev.set t none)).timers.filter
      (fun tm => isLive tm) = [] ∧
    fireDue tEnd (step (run props events) (Ev.set t none))
      = step (run props events) (Ev.set t none) := by
  have hc := coreInv_run props events
  have hnl : NoLive (step (run props events) (Ev.set t none)) := by
    by_cases hm : (run props events).mounted = true
    · rw [step_set t none hm]
      have hc0 : CoreInv (fireDue t (run props events)) := coreInv_fireDue t hc
      by_cases he : (fireDue t (run props events)).value = none
      · rw [handleChangeValue_eq_bail he]
        intro tm hmem
        exact hc0.2.1 he tm hmem
      · rw [handleChangeValue_eq_rerun he]
        exact noLive_effectRerun_none t (fun i tm hi hl => hc0.1 i tm hi hl) rfl
    · rw [step_unmounted _ (by simpa using hm)]
      exact hc.2.2.1 (by simpa using hm)
  refine ⟨?_, ?_, fireDue_of_noLive tEnd hnl⟩
  · exact effectBody_none_timers_length now rfl rfl
  · rw [List.filter_eq_nil_iff]
    intro tm hmem hptm
    have := hnl tm hmem
    simp [this] at hptm

/-! Timed invariant for traces consisting only of setValue calls with a
fixed delay D, all call instants bounded by T. -/

/-- Every live timer captured the current value. -/
def LivePayload {A : Type} (s : DState A) : Prop :=
  ∀ tm ∈ s.timers, isLive tm = true → s.value = some tm.payload

/-- Every live timer expires no later than T + D. -/
def LiveBound {A : Type} (D T : Nat) (s : DState A) : Prop :=
  ∀ tm ∈ s.timers, isLive tm = true → tm.fireTime ≤ T + D

/-- Every onFinish invocation so far happened no later than T. -/
def FinishBound {A : Type} (T : Nat) (s : DState A) : Prop :=
  ∀ p ∈ s.finishLog, p.1 ≤ T

/-- When a real value is live, either a timer is still pending for it or it
has already been committed. -/
def ValueCommit {A : Type} (s : DState A) : Prop :=
  ∀ v : A, s.value = some v →
    (∃ tm ∈ s.timers, isLive tm = true) ∨ s.debouncedValue = some v

/-- The full invariant for setValue-only traces: the structural CoreInv
together with the timing facts, a fixed delay D and a mounted controller. -/
def TimedInv {A : Type} (D T : Nat) (s : DState A) : Prop :=
  CoreInv s ∧ LivePayload s ∧ LiveBound D T s ∧ FinishBound T s ∧
    ValueCommit s ∧ s.delay = D ∧ s.mounted = true

theorem fireStep_cases {A : Type} (now i : Nat) (s : DState A) :
    fireStep now s i = s ∨
    ∃ tm, s.timers[i]? = some tm ∧ isLive tm = true ∧ tm.fireTime ≤ now ∧
      fireStep now s i =
        { s with
          timers := s.timers.set i { tm with fired := true }
          finishLog := s.finishLog ++ [(tm.fireTime, tm.payload)]
          debouncedValue := some tm.payload } := by
  unfold fireStep
  cases hi : s.timers[i]? with
  | none => left; rfl
  | some tm =>
    dsimp only
    by_cases hc : isLive tm = true ∧ tm.fireTime ≤ now
    · right
      exact ⟨tm, rfl, hc.1, hc.2, by rw [if_pos hc]⟩
    · left
      rw [if_neg hc]

theorem timedInv_fireStep {A : Type} {D T now : Nat} {s : DState A} (i : Nat)
    (hnow : now ≤ T) (h : TimedInv D T s) : TimedInv D T (fireStep now s i) := by
  obtain ⟨hcore, hlp, hlb, hfb, hvc, hdel, hmnt⟩ := h
  have hcore2 := coreInv_fireStep now i hcore
  rcases fireStep_cases now i s with heq | ⟨tm, hi, hlive, hdue, heq⟩
  · rw [heq]
    exact ⟨hcore, hlp, hlb, hfb, hvc, hdel, hmnt⟩
  · rw [heq] at hcore2 ⊢
    have hnl := noLive_set_fired hcore.1 hi hlive
    refine ⟨hcore2, ?_, ?_, ?_, ?_, hdel, hmnt⟩
    · intro tm2 hmem hl
      rw [hnl tm2 hmem] at hl
      exact absurd hl (by simp)
    · intro tm2 hmem hl
      rw [hnl tm2 hmem] at hl
      exact absurd hl (by simp)
    · intro p hp
      rcases List.mem_append.1 hp with hp1 | hp2
      · exact hfb p hp1
      · have : p = (tm.fireTime, tm.payload) := List.mem_singleton.1 hp2
        rw [this]
        exact le_trans hdue hnow
    · intro w hw
      right
      have hpay := hlp tm (mem_of_getElem?_eq_some hi) hlive
      show some tm.payload = some w
      rw [hpay] at hw
      exact hw.symm ▸ rfl

theorem timedInv_fireDue {A : Type} {D T now : Nat} {s : DState A}
    (hnow : now ≤ T) (h : TimedInv D T s) : TimedInv D T (fireDue now s) :=
  foldl_pred (fireStep now) (TimedInv D T)
    (fun _ i hi => timedInv_fireStep i hnow hi) _ s h

theorem effectRerun_eq_of_none {A : Type} {s : DState A} (now : Nat)
    (hdm : s.didMount = true) (hv : s.value = none) :
    effectRerun now s = clearRef (clearRef s) := by
  unfold effectRerun effectCleanup
  rw [effectBody_of_didMount now (by rw [clearRef_didMount]; exact hdm)]
  cases hv2 : (clearRef (clearRef s)).value with
  | some w =>
    rw [clearRef_value, clearRef_value, hv] at hv2
    exact Option.noConfusion hv2
  | none => rfl

theorem effectRerun_eq_of_some {A : Type} {s : DState A} {w : A} (now : Nat)
    (hdm : s.didMount = true) (hv : s.value = some w) :
    effectRerun now s = setTimeoutArm now w (clearRef (clearRef s)) := by
  unfold effectRerun effectCleanup
  rw [effectBody_of_didMount now (by rw [clearRef_didMount]; exact hdm)]
  cases hv2 : (clearRef (clearRef s)).value with
  | some w2 =>
    have hw : w2 = w := by
      rw [clearRef_value, clearRef_value, hv] at hv2
      injection hv2 with h3
      exact h3.symm
    rw [hw]
  | none =>
    rw [clearRef_value, clearRef_value, hv] at hv2
    exact Option.noConfusion hv2

theorem timedInv_effectRerun {A : Type} {D T now : Nat} {s : DState A}
    (hnow : now ≤ T) (h1 : RefLive s) (hfb : FinishBound T s)
    (hdel : s.delay = D) (hmnt : s.mounted = true) (hdm : s.didMount = true) :
    TimedInv D T (effectRerun now s) := by
  have hcore := coreInv_effectRerun now h1 hmnt
  cases hv : s.value with
  | none =>
    rw [effectRerun_eq_of_none now hdm hv] at hcore ⊢
    have hnl : NoLive (clearRef (clearRef s)) := clearRef_noLive (refLive_clearRef h1)
    refine ⟨hcore, ?_, ?_, ?_, ?_, ?_, ?_⟩
    · intro tm hmem hl
      rw [hnl tm hmem] at hl
      exact absurd hl (by simp)
    · intro tm hmem hl
      rw [hnl tm hmem] at hl
      exact absurd hl (by simp)
    · intro p hp
      rw [clearRef_finishLog, clearRef_finishLog] at hp
      exact hfb p hp
    · intro w hw
      rw [clearRef_value, clearRef_value, hv] at hw
      exact Option.noConfusion hw
    · rw [clearRef_delay, clearRef_delay]
      exact hdel
    · rw [clearRef_mounted, clearRef_mounted]
      exact hmnt
  | some w =>
    rw [effectRerun_eq_of_some now hdm hv] at hcore ⊢
    have hnl : NoLive (clearRef (clearRef s)) := clearRef_noLive (refLive_clearRef h1)
    have hts : (setTimeoutArm now w (clearRef (clearRef s))).timers
        = (clearRef (clearRef s)).timers
          ++ [⟨now + (clearRef (clearRef s)).delay, w, false, false⟩] := rfl
    refine ⟨hcore, ?_, ?_, ?_, ?_, ?_, ?_⟩
    · intro tm hmem hl
      rw [hts] at hmem
      rcases List.mem_append.1 hmem with hm1 | hm2
      · rw [hnl tm hm1] at hl
        exact absurd hl (by simp)
      · have htm := List.mem_singleton.1 hm2
        rw [setTimeoutArm_value, clearRef_value, clearRef_value, hv, htm]
    · intro tm hmem hl
      rw [hts] at hmem
      rcases List.mem_append.1 hmem with hm1 | hm2
      · rw [hnl tm hm1] at hl
        exact absurd hl (by simp)
      · have htm := List.mem_singleton.1 hm2
        rw [htm]
        show now + (clearRef (clearRef s)).delay ≤ T + D
        rw [clearRef_delay, clearRef_delay, hdel]
        exact Nat.add_le_add_right hnow D
    · intro p hp
      rw [setTimeoutArm_finishLog, clearRef_finishLog, clearRef_finishLog] at hp
      exact hfb p hp
    · intro u hu
      left
      refine ⟨⟨now + (clearRef (clearRef s)).delay, w, false, false⟩, ?_, rfl⟩
      rw [hts]
      exact List.mem_append_right _ (List.mem_singleton_self _)
    · rw [setTimeoutArm_delay, clearRef_delay, clearRef_delay]
      exact hdel
    · rw [setTimeoutArm_mounted, clearRef_mounted, clearRef_mounted]
      exact hmnt

theorem timedInv_handleChangeValue {A : Type} [DecidableEq A] {D T now : Nat}
    {s : DState A} (v : Option A) (hnow : now ≤ T) (h : TimedInv D T s) :
    TimedInv D T (handleChangeValue now v s) := by
  obtain ⟨⟨c1, c2, c3, c4⟩, hlp, hlb, hfb, hvc, hdel, hmnt⟩ := h
  by_cases he : s.value = v
  · rw [handleChangeValue_eq_bail he]
    exact ⟨⟨fun i tm hi hl => c1 i tm hi hl, fun hv2 tm hm2 => c2 hv2 tm hm2,
        fun hm2 tm hm3 => c3 hm2 tm hm3, c4⟩,
      fun tm hm2 hl => hlp tm hm2 hl, fun tm hm2 hl => hlb tm hm2 hl,
      fun p hp => hfb p hp, fun w hw => hvc w hw, hdel, hmnt⟩
  · rw [handleChangeValue_eq_rerun he]
    exact timedInv_effectRerun hnow (fun i tm hi hl => c1 i tm hi hl)
      (fun p hp => hfb p hp) hdel hmnt c4

theorem timedInv_step_set {A : Type} [DecidableEq A] {D T : Nat} {s : DState A}
    (t : Nat) (v : Option A) (ht : t ≤ T) (h : TimedInv D T s) :
    TimedInv D T (step s (Ev.set t v)) := by
  rw [step_set t v h.2.2.2.2.2.2]
  exact timedInv_handleChangeValue v ht (timedInv_fireDue ht h)

theorem timedInv_useDebounce {A : Type} (D T : Nat) (dv : Option A) :
    TimedInv D T (useDebounce ⟨D, dv⟩) := by
  refine ⟨coreInv_useDebounce _, ?_, ?_, ?_, ?_, rfl, rfl⟩
  · intro tm hmem
    exact absurd hmem (by rw [useDebounce_eq]; simp)
  · intro tm hmem
    exact absurd hmem (by rw [useDebounce_eq]; simp)
  · intro p hp
    exact absurd hp (by rw [useDebounce_eq]; simp)
  · intro w hw
    exact Option.noConfusion hw

theorem foldl_pred_mem {B C : Type} (f : C → B → C) (P : C → Prop) :
    ∀ (L : List B) (s : C), (∀ s2 b, b ∈ L → P s2 → P (f s2 b)) → P s →
      P (L.foldl f s)
  | [], _, _, h => h
  | b :: L, s, hf, h => by
    rw [List.foldl_cons]
    exact foldl_pred_mem f P L (f s b)
      (fun s2 c hc => hf s2 c (List.mem_cons_of_mem b hc))
      (hf s b (List.mem_cons_self b L) h)

set_option maxHeartbeats 1000000 in
theorem timedInv_run {A : Type} [DecidableEq A] (D T : Nat) (dv : Option A)
    (calls : List (Nat × Option A)) (hT : ∀ p ∈ calls, p.1 ≤ T) :
    TimedInv D T (run ⟨D, dv⟩ (calls.map fun p => Ev.set p.1 p.2)) := by
  unfold run
  rw [List.foldl_map]
  exact foldl_pred_mem (fun st p => step st (Ev.set p.1 p.2)) (TimedInv D T)
    calls (useDebounce ⟨D, dv⟩)
    (fun s2 p hp hs2 => by
      show TimedInv D T (step s2 (Ev.set p.1 p.2))
      exact timedInv_step_set p.1 p.2 (hT p hp) hs2)
    (timedInv_useDebounce D T dv)

theorem commit_at {A : Type} {D T : Nat} {s : DState A} (h : TimedInv D T s)
    {v : A} (hv : s.value = some v) :
    (fireDue (T + D) s).debouncedValue = some v := by
  by_cases hex : ∃ (i : Nat) (tm : Timer A), s.timers[i]? = some tm ∧ isLive tm = true
  · obtain ⟨i, tm, hi, hl⟩ := hex
    have hp := h.2.1 tm (mem_of_getElem?_eq_some hi) hl
    have hpay : tm.payload = v := by
      rw [hv] at hp
      injection hp with h3
      exact h3.symm
    have hb := h.2.2.1 tm (mem_of_getElem?_eq_some hi) hl
    rw [fireDue_single (T + D) h.1.1 hi hl hb]
    show some tm.payload = some v
    rw [hpay]
  · have hnl : NoLive s := by
      intro tm hmem
      by_contra hf
      obtain ⟨i, hi⟩ := List.mem_iff_getElem?.1 hmem
      exact hex ⟨i, tm, hi, by simpa using hf⟩
    rw [fireDue_of_noLive (T + D) hnl]
    rcases h.2.2.2.2.1 v hv with ⟨tm, hmem, hl⟩ | hdb
    · rw [hnl tm hmem] at hl
      exact absurd hl (by simp)
    · exact hdb

theorem setTimeoutArm_getElem {A : Type} (now : Nat) (v : A) (s : DState A) :
    (setTimeoutArm now v s).timers[s.timers.length]?
      = some ⟨now + s.delay, v, false, false⟩ :=
  List.getElem?_concat_length s.timers _

theorem effectRerun_some_shape {A : Type} {s : DState A} {w : A} (now : Nat)
    (hdm : s.didMount = true) (hv : s.value = some w) :
    ∃ n : Nat,
      (effectRerun now s).timers[n]? = some ⟨now + s.delay, w, false, false⟩ ∧
      (effectRerun now s).finishLog = s.finishLog := by
  rw [effectRerun_eq_of_some now hdm hv]
  refine ⟨(clearRef (clearRef s)).timers.length, ?_, ?_⟩
  · have h1 := setTimeoutArm_getElem now w (clearRef (clearRef s))
    rw [clearRef_delay, clearRef_delay] at h1
    exact h1
  · rw [setTimeoutArm_finishLog, clearRef_finishLog, clearRef_finishLog]

theorem step_set_some_shape {A : Type} [DecidableEq A] {s0 : DState A}
    (hcore : CoreInv s0) (hmnt : s0.mounted = true) (t : Nat) {v : A}
    (hne : ¬s0.value = some v) :
    ∃ n : Nat,
      (step s0 (Ev.set t (some v))).timers[n]?
          = some ⟨t + s0.delay, v, false, false⟩ ∧
      (step s0 (Ev.set t (some v))).finishLog = (fireDue t s0).finishLog := by
  rw [step_set t (some v) hmnt,
    handleChangeValue_eq_rerun
      (show ¬(fireDue t s0).value = some v by rw [fireDue_value]; exact hne)]
  have hdm : ({ fireDue t s0 with
      value := some v
      changeLog := (fireDue t s0).changeLog ++ [some v] }).didMount = true :=
    (coreInv_fireDue t hcore).2.2.2
  obtain ⟨n, h1, h2⟩ := effectRerun_some_shape t hdm rfl
  refine ⟨n, ?_, ?_⟩
  · have hd2 : ({ fireDue t s0 with
        value := some v
        changeLog := (fireDue t s0).changeLog ++ [some v] }).delay = s0.delay := by
      show (fireDue t s0).delay = s0.delay
      exact fireDue_delay t s0
    rw [hd2] at h1
    exact h1
  · exact h2

/-- C1 (amended): for every sequence of setValue calls with a fixed positive
delay D, all occurring no later than the last call, if the last call carries
the real value v at instant t and no further call occurs, then at instant
t + D debouncedValue equals v; and provided v differs from the live value
immediately before that last call, exactly one onFinish invocation, carrying
v, occurs in the interval from t exclusive to t + D inclusive.  The proviso
is forced: a last call repeating the already-live value does not re-run the
effect (its dependencies are unchanged), so no fresh timer is armed and the
earlier commit may fall outside the interval. -/
theorem useDebounce_quiescence_commit (D : Nat) (dv : Option ℕ)
    (pre : List (Nat × Option ℕ)) (t : Nat) (v : ℕ) (hD : 0 < D)
    (hpre : ∀ p ∈ pre, p.1 ≤ t) :
    (runTo ⟨D, dv⟩ ((pre.map fun p => Ev.set p.1 p.2) ++ [Ev.set t (some v)])
        (t + D)).debouncedValue = some v ∧
    (¬(run ⟨D, dv⟩ (pre.map fun p => Ev.set p.1 p.2)).value = some v →
      (runTo ⟨D, dv⟩ ((pre.map fun p => Ev.set p.1 p.2) ++ [Ev.set t (some v)])
          (t + D)).finishLog.filter
        (fun p => decide (t < p.1) && decide (p.1 ≤ t + D)) = [(t + D, v)]) := by
  have h0 : TimedInv D t (run ⟨D, dv⟩ (pre.map fun p => Ev.set p.1 p.2)) :=
    timedInv_run D t dv pre hpre
  have hrun : run ⟨D, dv⟩ ((pre.map fun p => Ev.set p.1 p.2) ++ [Ev.set t (some v)])
      = step (run ⟨D, dv⟩ (pre.map fun p => Ev.set p.1 p.2)) (Ev.set t (some v)) := by
    unfold run
    rw [List.foldl_append]
    rfl
  have h1 : TimedInv D t
      (step (run ⟨D, dv⟩ (pre.map fun p => Ev.set p.1 p.2)) (Ev.set t (some v))) :=
    timedInv_step_set t (some v) (le_refl t) h0
  have hv1 : (step (run ⟨D, dv⟩ (pre.map fun p => Ev.set p.1 p.2))
      (Ev.set t (some v))).value = some v := by
    rw [step_set t (some v) h0.2.2.2.2.2.2, handleChangeValue_value]
  constructor
  · unfold runTo
    rw [hrun]
    exact commit_at h1 hv1
  · intro hne
    unfold runTo
    rw [hrun]
    obtain ⟨n, hn, hfl⟩ := step_set_some_shape h0.1 h0.2.2.2.2.2.2 t hne
    rw [h0.2.2.2.2.2.1] at hn
    have hl : isLive (⟨t + D, v, false, false⟩ : Timer ℕ) = true := rfl
    have hd : (⟨t + D, v, false, false⟩ : Timer ℕ).fireTime ≤ t + D := le_refl _
    rw [fireDue_single (t + D) h1.1.1 hn hl hd]
    show ((step (run ⟨D, dv⟩ (pre.map fun p => Ev.set p.1 p.2))
          (Ev.set t (some v))).finishLog ++ [(t + D, v)]).filter
        (fun p => decide (t < p.1) && decide (p.1 ≤ t + D)) = [(t + D, v)]
    rw [hfl, List.filter_append]
    have hold : ((fireDue t (run ⟨D, dv⟩ (pre.map fun p => Ev.set p.1 p.2))).finishLog.filter
        (fun p => decide (t < p.1) && decide (p.1 ≤ t + D))) = [] := by
      rw [List.filter_eq_nil_iff]
      intro p hp hpred
      have hb : p.1 ≤ t := (timedInv_fireDue (le_refl t) h0).2.2.2.1 p hp
      simp at hpred
      exact absurd hpred.1 (Nat.not_lt.2 hb)
    rw [hold]
    have hlt : t < t + D := by omega
    simp [hlt]

/-- C1 counterexample: delay 500, setValue(1) at instant 0 and again
setValue(1) at instant 600.  The last call carries value 1 at t = 600 and no
further call occurs before 1100, yet zero onFinish invocations (not exactly
one) fall in the interval from 600 exclusive to 1100 inclusive: the repeated
value does not re-run the effect, so the only commit happened at 500. -/
theorem useDebounce_quiescence_commit_cex :
    ((runTo ⟨500, (none : Option ℕ)⟩ [Ev.set 0 (some 1), Ev.set 600 (some 1)]
        1100).finishLog.filter
      (fun p => decide (600 < p.1) && decide (p.1 ≤ 1100))).length = 0 ∧
    (runTo ⟨500, (none : Option ℕ)⟩ [Ev.set 0 (some 1), Ev.set 600 (some 1)]
        1100).finishLog = [(500, 1)] ∧
    (runTo ⟨500, (none : Option ℕ)⟩ [Ev.set 0 (some 1), Ev.set 600 (some 1)]
        1100).debouncedValue = some 1 := by
  decide

theorem useDebounce_quiescence_commit_witness :
    (runTo ⟨500, (none : Option ℕ)⟩
        (([((0 : Nat), some (2 : ℕ))].map fun p => Ev.set p.1 p.2)
          ++ [Ev.set 100 (some 3)]) 600).debouncedValue = some 3 ∧
    (runTo ⟨500, (none : Option ℕ)⟩
        (([((0 : Nat), some (2 : ℕ))].map fun p => Ev.set p.1 p.2)
          ++ [Ev.set 100 (some 3)]) 600).finishLog.filter
      (fun p => decide (100 < p.1) && decide (p.1 ≤ 600)) = [(600, 3)] := by
  have h := useDebounce_quiescence_commit 500 none [(0, some 2)] 100 3
    (by decide) (by decide)
  exact ⟨h.1, h.2 (by decide)⟩

/-! Invariant for rapid call sequences: calls spaced less than D apart, each
changing the live value.  After each such call, no commit has happened yet,
debouncedValue still holds the initial default, and the single live timer is
the one armed by the latest call. -/

/-- State of a mounted controller in the middle of a rapid burst whose
latest call was setValue(vc) at instant tc. -/
def RapidInv {A : Type} (D : Nat) (dv : Option A) (tc : Nat) (vc : A)
    (s : DState A) : Prop :=
  s.finishLog = [] ∧ s.debouncedValue = dv ∧ s.value = some vc ∧ RefLive s ∧
    (∃ tm ∈ s.timers, isLive tm = true ∧ tm.fireTime = tc + D ∧ tm.payload = vc) ∧
    s.delay = D ∧ s.mounted = true ∧ s.didMount = true

theorem live_unique {A : Type} {s : DState A} (href : RefLive s)
    {tm tm2 : Timer A} (h1 : tm ∈ s.timers) (hl1 : isLive tm = true)
    (h2 : tm2 ∈ s.timers) (hl2 : isLive tm2 = true) : tm2 = tm := by
  obtain ⟨i, hi⟩ := List.mem_iff_getElem?.1 h1
  obtain ⟨j, hj⟩ := List.mem_iff_getElem?.1 h2
  have e1 := href i tm hi hl1
  have e2 := href j tm2 hj hl2
  rw [e1] at e2
  have hij : i = j := by injection e2
  rw [← hij] at hj
  rw [hi] at hj
  injection hj with h3
  exact h3.symm

theorem rapidInv_arm {A : Type} {D : Nat} {dv : Option A} {t2 : Nat} {v2 : A}
    {pre : DState A} (hfl : pre.finishLog = []) (hdb : pre.debouncedValue = dv)
    (hval : pre.value = some v2) (href : RefLive pre) (hdel : pre.delay = D)
    (hmnt : pre.mounted = true) (hdm : pre.didMount = true) :
    RapidInv D dv t2 v2 (setTimeoutArm t2 v2 (clearRef (clearRef pre))) := by
  have hnl : NoLive (clearRef (clearRef pre)) := clearRef_noLive (refLive_clearRef href)
  refine ⟨?_, ?_, ?_, ?_, ?_, ?_, ?_, ?_⟩
  · rw [setTimeoutArm_finishLog, clearRef_finishLog, clearRef_finishLog]
    exact hfl
  · rw [setTimeoutArm_debouncedValue, clearRef_debouncedValue, clearRef_debouncedValue]
    exact hdb
  · rw [setTimeoutArm_value, clearRef_value, clearRef_value]
    exact hval
  · exact refLive_setTimeoutArm t2 v2 hnl
  · refine ⟨⟨t2 + (clearRef (clearRef pre)).delay, v2, false, false⟩, ?_, rfl, ?_, rfl⟩
    · show _ ∈ (clearRef (clearRef pre)).timers ++ [_]
      exact List.mem_append_right _ (List.mem_singleton_self _)
    · show t2 + (clearRef (clearRef pre)).delay = t2 + D
      rw [clearRef_delay, clearRef_delay, hdel]
  · rw [setTimeoutArm_delay, clearRef_delay, clearRef_delay]
    exact hdel
  · rw [setTimeoutArm_mounted, clearRef_mounted, clearRef_mounted]
    exact hmnt
  · rw [setTimeoutArm_didMount, clearRef_didMount, clearRef_didMount]
    exact hdm

theorem rapidInv_step {A : Type} [DecidableEq A] {D : Nat} {dv : Option A}
    {tc t2 : Nat} {vc v2 : A} {s : DState A} (h : RapidInv D dv tc vc s)
    (h2 : t2 < tc + D) (h3 : ¬vc = v2) :
    RapidInv D dv t2 v2 (step s (Ev.set t2 (some v2))) := by
  obtain ⟨hfl, hdb, hval, href, ⟨tm, hmem, hlive, hft, hpay⟩, hdel, hmnt, hdm⟩ := h
  have hnotdue : ∀ tm2 ∈ s.timers, isLive tm2 = true → t2 < tm2.fireTime := by
    intro tm2 hm2 hl2
    rw [live_unique href hmem hlive hm2 hl2, hft]
    exact h2
  have hne2 : ¬s.value = some v2 := by
    rw [hval]
    intro hc
    injection hc with h4
    exact h3 h4
  have hpdm : ({ s with
      value := some v2
      changeLog := s.changeLog ++ [some v2] }).didMount = true := hdm
  have hpv : ({ s with
      value := some v2
      changeLog := s.changeLog ++ [some v2] }).value = some v2 := rfl
  rw [step_set t2 (some v2) hmnt, fireDue_of_notDue t2 hnotdue,
    handleChangeValue_eq_rerun hne2,
    effectRerun_eq_of_some t2 hpdm hpv]
  exact rapidInv_arm hfl hdb rfl (fun i tm2 hi hl => href i tm2 hi hl) hdel hmnt hdm

theorem rapidInv_first {A : Type} [DecidableEq A] (D : Nat) (dv : Option A)
    (t1 : Nat) (v1 : A) :
    RapidInv D dv t1 v1 (step (useDebounce ⟨D, dv⟩) (Ev.set t1 (some v1))) := by
  have hnl : NoLive (useDebounce ⟨D, dv⟩) := by
    intro tm hmem
    exact absurd hmem (by rw [useDebounce_eq]; simp)
  have hpdm : ({ useDebounce ⟨D, dv⟩ with
      value := some v1
      changeLog := (useDebounce ⟨D, dv⟩).changeLog ++ [some v1] }).didMount
      = true := rfl
  have hpv : ({ useDebounce ⟨D, dv⟩ with
      value := some v1
      changeLog := (useDebounce ⟨D, dv⟩).changeLog ++ [some v1] }).value
      = some v1 := rfl
  rw [step_set t1 (some v1) rfl, fireDue_of_noLive t1 hnl,
    handleChangeValue_eq_rerun (fun hc => Option.noConfusion hc),
    effectRerun_eq_of_some t1 hpdm hpv]
  exact rapidInv_arm rfl rfl rfl (noLive_refLive hnl) rfl rfl rfl

theorem rapidInv_chain {A : Type} [DecidableEq A] {D : Nat} {dv : Option A} :
    ∀ (rest : List (Nat × A)) (s : DState A) (tc : Nat) (vc : A),
      RapidInv D dv tc vc s →
      List.Chain (fun p q => p.1 ≤ q.1 ∧ q.1 < p.1 + D ∧ ¬p.2 = q.2) (tc, vc) rest →
      RapidInv D dv (rest.getLastD (tc, vc)).1 (rest.getLastD (tc, vc)).2
        (rest.foldl (fun st p => step st (Ev.set p.1 (some p.2))) s)
  | [], _, _, _, h, _ => h
  | b :: rest, s, tc, vc, h, hch => by
    rw [List.foldl_cons, List.getLastD_cons]
    have hr := List.chain_cons.1 hch
    have hstep : RapidInv D dv b.1 b.2 (step s (Ev.set b.1 (some b.2))) :=
      rapidInv_step h hr.1.2.1 hr.1.2.2
    exact rapidInv_chain rest _ b.1 b.2 hstep hr.2

/-- C2 (amended): for every rapid sequence of setValue calls with fixed
delay D, each spaced less than D after the previous one and each carrying a
value different from the one before it (so every call actually changes the
live value), onFinish fires at most once in total and only with the final
call's value, and at every observation instant debouncedValue is either
still the initial default or the final call's value, never an intermediate
one.  The distinct-consecutive-values proviso is forced: a call repeating
the live value does not re-run the effect, leaves the older timer pending,
and that timer commits an intermediate value. -/
theorem useDebounce_rapid_supersede (D : Nat) (dv : Option ℕ) (c : Nat × ℕ)
    (rest : List (Nat × ℕ)) (tEnd : Nat)
    (hch : List.Chain (fun p q => p.1 ≤ q.1 ∧ q.1 < p.1 + D ∧ ¬p.2 = q.2) c rest) :
    (runTo ⟨D, dv⟩ ((c :: rest).map fun p => Ev.set p.1 (some p.2))
        tEnd).finishLog.length ≤ 1 ∧
    (∀ p ∈ (runTo ⟨D, dv⟩ ((c :: rest).map fun p => Ev.set p.1 (some p.2))
        tEnd).finishLog, p.2 = (rest.getLastD c).2) ∧
    ((runTo ⟨D, dv⟩ ((c :: rest).map fun p => Ev.set p.1 (some p.2))
        tEnd).debouncedValue = dv ∨
      (runTo ⟨D, dv⟩ ((c :: rest).map fun p => Ev.set p.1 (some p.2))
        tEnd).debouncedValue = some (rest.getLastD c).2) := by
  have hrun : run ⟨D, dv⟩ ((c :: rest).map fun p => Ev.set p.1 (some p.2))
      = rest.foldl (fun st p => step st (Ev.set p.1 (some p.2)))
          (step (useDebounce ⟨D, dv⟩) (Ev.set c.1 (some c.2))) := by
    unfold run
    rw [List.map_cons, List.foldl_cons, List.foldl_map]
  have hR : RapidInv D dv (rest.getLastD c).1 (rest.getLastD c).2
      (run ⟨D, dv⟩ ((c :: rest).map fun p => Ev.set p.1 (some p.2))) := by
    rw [hrun]
    exact rapidInv_chain rest _ c.1 c.2 (rapidInv_first D dv c.1 c.2) hch
  obtain ⟨hfl, hdb, hval, href, ⟨tm, hmem, hlive, hft, hpay⟩, hdel, hmnt, hdm⟩ := hR
  unfold runTo
  by_cases hdue : tm.fireTime ≤ tEnd
  · obtain ⟨i, hi⟩ := List.mem_iff_getElem?.1 hmem
    rw [fireDue_single tEnd href hi hlive hdue]
    refine ⟨?_, ?_, ?_⟩
    · show ((run ⟨D, dv⟩ ((c :: rest).map fun p => Ev.set p.1 (some p.2))).finishLog
          ++ [(tm.fireTime, tm.payload)]).length ≤ 1
      rw [hfl]
      simp
    · intro p hp
      have hp2 : p ∈ (run ⟨D, dv⟩
          ((c :: rest).map fun p => Ev.set p.1 (some p.2))).finishLog
          ++ [(tm.fireTime, tm.payload)] := hp
      rw [hfl] at hp2
      simp at hp2
      rw [hp2]
      exact hpay
    · right
      show some tm.payload = some (rest.getLastD c).2
      rw [hpay]
  · have hnd : ∀ tm2 ∈ (run ⟨D, dv⟩
        ((c :: rest).map fun p => Ev.set p.1 (some p.2))).timers,
        isLive tm2 = true → tEnd < tm2.fireTime := by
      intro tm2 hm2 hl2
      rw [live_unique href hmem hlive hm2 hl2]
      omega
    rw [fireDue_of_notDue tEnd hnd]
    refine ⟨by rw [hfl]; simp, ?_, Or.inl hdb⟩
    intro p hp
    rw [hfl] at hp
    exact absurd hp (by simp)

/-- C2 counterexample: delay 500 and the calls setValue(1) at 0, setValue(1)
at 400, setValue(2) at 800, each spaced less than 500 apart.  onFinish fires
twice, and the first invocation carries the intermediate value 1, which also
becomes debouncedValue from instant 500 on: the repeated value at 400 does
not re-arm the timer armed at 0, so that timer commits at 500 before the
final call. -/
theorem useDebounce_rapid_supersede_cex :
    (runTo ⟨500, (none : Option ℕ)⟩
        [Ev.set 0 (some 1), Ev.set 400 (some 1), Ev.set 800 (some 2)]
        1300).finishLog = [(500, 1), (1300, 2)] ∧
    (runTo ⟨500, (none : Option ℕ)⟩
        [Ev.set 0 (some 1), Ev.set 400 (some 1)] 700).debouncedValue
      = some 1 := by
  decide

theorem useDebounce_rapid_supersede_witness :
    (runTo ⟨500, (none : Option ℕ)⟩
        (((0, 1) :: [((100 : Nat), (2 : ℕ))]).map fun p => Ev.set p.1 (some p.2))
        700).finishLog.length ≤ 1 ∧
    (∀ p ∈ (runTo ⟨500, (none : Option ℕ)⟩
        (((0, 1) :: [((100 : Nat), (2 : ℕ))]).map fun p => Ev.set p.1 (some p.2))
        700).finishLog, p.2 = 2) ∧
    ((runTo ⟨500, (none : Option ℕ)⟩
        (((0, 1) :: [((100 : Nat), (2 : ℕ))]).map fun p => Ev.set p.1 (some p.2))
        700).debouncedValue = none ∨
      (runTo ⟨500, (none : Option ℕ)⟩
        (((0, 1) :: [((100 : Nat), (2 : ℕ))]).map fun p => Ev.set p.1 (some p.2))
        700).debouncedValue = some 2) := by
  have h := useDebounce_rapid_supersede 500 none (0, 1) [(100, 2)] 700
    (List.Chain.cons (by omega) (List.Chain.nil))
  exact h
